import Mathlib

/-!
TetAMR: a shallow embedding of the adaptive tetrahedral mesh-refinement engine.

This file embeds the AMR subsystem of the repository (node/edge/tet stores,
the iterative marking algorithms, and the topological refine/derefine
operators) and proves the specified properties about it.  The AMR
implementation files themselves (`mesh_adapter.cpp`, `refinement.hpp`,
`edge_store.cpp`, `node_connectivity.cpp`, `tet_store.cpp`,
`active_element_store.cpp`) are referenced by the repository's documentation
page but are not present in the tree; definitions for those parts are
modelled from the specification, as marked on each definition.
-/

namespace TetAMR

/-- Local vertex endpoints of the six edges of a tetrahedron with local
vertices `0..3`: edge `0 = (0,1)`, `1 = (0,2)`, `2 = (0,3)`, `3 = (1,2)`,
`4 = (1,3)`, `5 = (2,3)`. -/
def edgeEnds : Fin 6 → Fin 4 × Fin 4
  | 0 => (0, 1) | 1 => (0, 2) | 2 => (0, 3)
  | 3 => (1, 2) | 4 => (1, 3) | 5 => (2, 3)

/-- The three local edges of each of the four triangular faces of a
tetrahedron.  Face `0` is spanned by vertices `{0,1,2}`, face `1` by
`{0,1,3}`, face `2` by `{0,2,3}`, face `3` by `{1,2,3}`. -/
def faceEdges : Fin 4 → Finset (Fin 6)
  | 0 => {0, 1, 3} | 1 => {0, 2, 4} | 2 => {1, 2, 5} | 3 => {3, 4, 5}

/-- The three pairs of opposite (vertex-disjoint) edges of a tetrahedron:
`(0,1)/(2,3)`, `(0,2)/(1,3)`, `(0,3)/(1,2)`. -/
def oppPairEdges : Fin 3 → Finset (Fin 6)
  | 0 => {0, 5} | 1 => {1, 4} | 2 => {2, 3}

/-- Modelled from the spec: the supported split templates of the Refiner
(`refine_one_to_two`, `refine_one_to_four` on an opposite-edge pair or on a
face, `refine_one_to_eight`), each a fixed local connectivity pattern mapping
marked edges to child tets. -/
inductive Template
  | oneToTwo (e : Fin 6)
  | oneToFourOpp (p : Fin 3)
  | oneToFourFace (f : Fin 4)
  | oneToEight
deriving DecidableEq, Repr, Fintype

/-- The set of local edges a template splits. -/
def Template.edges : Template → Finset (Fin 6)
  | .oneToTwo e => {e}
  | .oneToFourOpp p => oppPairEdges p
  | .oneToFourFace f => faceEdges f
  | .oneToEight => Finset.univ

/-- The number of child tets a template produces. -/
def Template.childCount : Template → ℕ
  | .oneToTwo _ => 2
  | .oneToFourOpp _ => 4
  | .oneToFourFace _ => 4
  | .oneToEight => 8

/-- All supported templates, in a fixed enumeration order. -/
def allTemplates : List Template :=
  ((List.finRange 6).map .oneToTwo) ++ ((List.finRange 3).map .oneToFourOpp) ++
    ((List.finRange 4).map .oneToFourFace) ++ [.oneToEight]

/-- Modelled from the spec: the class-1 check of `mark_refinement` — the
marked-edge pattern already corresponds exactly to one of the supported split
templates; among the templates consistent with the marked set the one using
the fewest new child tets is chosen. -/
def classOneTemplate (m : Finset (Fin 6)) : Option Template :=
  (allTemplates.filter (fun t => decide (t.edges = m))).argmin Template.childCount

/-- Modelled from the spec: the class-2 check of `mark_refinement` — a
proper (non-1:8) template reachable by marking additional edges; the template
requiring the fewest additional marks (then fewest children) is chosen. -/
def classTwoTemplate (m : Finset (Fin 6)) : Option Template :=
  (allTemplates.filter (fun t => decide (t.childCount < 8 ∧ m ⊂ t.edges))).argmin
    (fun t => (t.edges \ m).card * 16 + t.childCount)

/-- Modelled from the spec: one examination of a single active, unlocked
tetrahedron by `mark_refinement` (`refinement_class_one` / `_two` / `_three`
dispatch): given the tet's currently marked local edges, return the tet's
marked local edges after this examination.  Class 1 adds no marks, class 2
marks the edges completing the chosen template, class 3 marks all six edges
(forcing the maximal 1:8 split). -/
def markPassTet (m : Finset (Fin 6)) : Finset (Fin 6) :=
  if m = ∅ then m
  else
    match classOneTemplate m with
    | some _ => m
    | none =>
      match classTwoTemplate m with
      | some t => t.edges
      | none => Finset.univ

/-- The marked-edge pattern exactly matches a supported split template
(compatibility class 1). -/
def classOneApplicable (m : Finset (Fin 6)) : Prop := ∃ t : Template, t.edges = m

/-- Some additional edges can be marked to reach a supported proper (non-1:8)
template (compatibility class 2). -/
def classTwoApplicable (m : Finset (Fin 6)) : Prop :=
  ∃ t : Template, t.childCount < 8 ∧ m ⊂ t.edges

/-- The marked edges all lie on one triangular face of the tet. -/
def allOnOneFace (m : Finset (Fin 6)) : Prop := ∃ f : Fin 4, m ⊆ faceEdges f

instance (m : Finset (Fin 6)) : Decidable (classOneApplicable m) :=
  inferInstanceAs (Decidable (∃ t : Template, t.edges = m))

instance (m : Finset (Fin 6)) : Decidable (classTwoApplicable m) :=
  inferInstanceAs (Decidable (∃ t : Template, t.childCount < 8 ∧ m ⊂ t.edges))

instance (m : Finset (Fin 6)) : Decidable (allOnOneFace m) :=
  inferInstanceAs (Decidable (∃ f : Fin 4, m ⊆ faceEdges f))

/-- The compatibility class assigned to a marked-edge set, classes tried in
the order 1, 2, 3, first applicable wins. -/
def classOf (m : Finset (Fin 6)) : ℕ :=
  if classOneApplicable m then 1 else if classTwoApplicable m then 2 else 3

/-- The compatibility class as a function of only the marked-edge count and
whether the marked edges all lie on one face. -/
def classTable : ℕ → Bool → ℕ
  | 1, _ => 1
  | 2, true => 2
  | 2, false => 1
  | 3, true => 1
  | 3, false => 3
  | 6, _ => 1
  | _, _ => 3

/-- A global edge: an unordered pair of node ids, kept normalized. -/
abbrev GEdge := ℕ × ℕ

/-- Normalize an unordered node pair into a `GEdge`. -/
def normPair (a b : ℕ) : GEdge := if a ≤ b then (a, b) else (b, a)

/-- Modelled from the spec: one partition's active mesh as the marking
algorithms see it — a finite set of active tet ids, each with its four
global node ids. -/
structure Mesh where
  tets : Finset ℕ
  tetNode : ℕ → Fin 4 → ℕ

/-- The global edge of local edge `i` of tet `t`. -/
def Mesh.tetEdge (msh : Mesh) (t : ℕ) (i : Fin 6) : GEdge :=
  normPair (msh.tetNode t (edgeEnds i).1) (msh.tetNode t (edgeEnds i).2)

/-- All global edges of the mesh. -/
def Mesh.edges (msh : Mesh) : Finset GEdge :=
  msh.tets.biUnion (fun t => Finset.univ.image (msh.tetEdge t))

/-- All global nodes of the mesh. -/
def Mesh.nodes (msh : Mesh) : Finset ℕ :=
  msh.tets.biUnion (fun t => Finset.univ.image (msh.tetNode t))

/-- The local edges of tet `t` whose global edge carries a
`needsRefinement` mark in `M`. -/
def localMarked (msh : Mesh) (M : Finset GEdge) (t : ℕ) : Finset (Fin 6) :=
  Finset.univ.filter (fun i => msh.tetEdge t i ∈ M)

/-- Modelled from the spec: one full pass of `mark_refinement` over all
active tets of a partition: every tet is examined (`markPassTet`) and the
marks the examinations add are applied to the global edge state; the pass is
repeated until no edge's flag changes. -/
def mark_refinement_pass (msh : Mesh) (M : Finset GEdge) : Finset GEdge :=
  M ∪ msh.tets.biUnion (fun t => (markPassTet (localMarked msh M t)).image (msh.tetEdge t))

/-- Modelled from the spec: the split the Refiner applies to one tet during
`perform_refinement`: the edges of the template exactly matching the tet's
marked edges.  The Refiner trusts the marking; a nonempty marked set matching
no template is a fatal invariant violation and splits nothing here. -/
def refinerSplit (m : Finset (Fin 6)) : Finset (Fin 6) :=
  match classOneTemplate m with
  | some t => t.edges
  | none => ∅

/-- Modelled from the spec: the set of global edges split by
`perform_refinement` over the whole partition. -/
def performRefinementSplit (msh : Mesh) (M : Finset GEdge) : Finset GEdge :=
  msh.tets.biUnion (fun t => (refinerSplit (localMarked msh M t)).image (msh.tetEdge t))

/-- The global edges of face `f` of tet `t`. -/
def globalFace (msh : Mesh) (t : ℕ) (f : Fin 4) : Finset GEdge :=
  (faceEdges f).image (msh.tetEdge t)

/-- The subdivision pattern `perform_refinement` induces on one face of one
tet: the subset of the face's edges that were split.  For the supported
templates this set fully determines the triangle subdivision of the face. -/
def facePattern (msh : Mesh) (M : Finset GEdge) (t : ℕ) (f : Fin 4) : Finset GEdge :=
  (globalFace msh t f).filter (fun e => e ∈ performRefinementSplit msh M)

/-- One-step neighborhood in the mesh's node graph (two nodes are adjacent
when some mesh edge joins them). -/
def nbhd (msh : Mesh) (s : Finset ℕ) : Finset ℕ :=
  s ∪ msh.nodes.filter (fun b => decide (∃ a ∈ s, normPair a b ∈ msh.edges))

/-- The mesh has diameter at most `k`, measured in edges: every two mesh
nodes are joined by a path of at most `k` mesh edges. -/
def diameterLE (msh : Mesh) (k : ℕ) : Prop :=
  ∀ a ∈ msh.nodes, ∀ b ∈ msh.nodes, b ∈ (nbhd msh)^[k] {a}

instance (msh : Mesh) (k : ℕ) : Decidable (diameterLE msh k) :=
  inferInstanceAs (Decidable (∀ a ∈ msh.nodes, ∀ b ∈ msh.nodes, b ∈ (nbhd msh)^[k] {a}))

/-- A fan of three tets sharing the spine edge `(0,1)`: tet `t` has nodes
`(0, 1, t+2, t+3)`. -/
def fanMesh : Mesh where
  tets := {0, 1, 2}
  tetNode := fun t i => if i = 0 then 0 else if i = 1 then 1 else if i = 2 then t + 2 else t + 3

/-- Initial refinement demand on the fan: the three outer edges plus two
edges of the first tet meeting at node `2`. -/
def fanM0 : Finset GEdge := {(2, 3), (3, 4), (4, 5), (0, 2), (1, 2)}

/-- Two tets sharing the face with nodes `{1,2,3}`: tet `0` has nodes
`(0,1,2,3)` and tet `1` has nodes `(1,2,3,4)`. -/
def twoTetMesh : Mesh where
  tets := {0, 1}
  tetNode := fun t i => (i : ℕ) + t

/-- Modelled from the spec: the parent/child structure `mark_derefinement`
operates on: the candidate parent tets, the child list of every tet (so that
tets whose children themselves have children can be skipped), the parent's
non-parent (created-by-split) points, the child edges incident to each such
point, and the set of all of a parent's children's edges. -/
structure DerefWorld where
  tets : List ℕ
  children : ℕ → List ℕ
  nonParentPts : ℕ → Finset ℕ
  incident : ℕ → ℕ → Finset GEdge
  childEdges : ℕ → Finset GEdge

/-- The removal-safe points of parent `t`: its non-parent points all of whose
incident child edges are marked `needsDerefinement` in `D`. -/
def removalSafe (w : DerefWorld) (D : Finset GEdge) (t : ℕ) : Finset ℕ :=
  (w.nonParentPts t).filter (fun p => decide (w.incident t p ⊆ D))

/-- The decisions of Algorithm 4's decision table: derefine fully, derefine
partially (fewer child tets collapse), or refuse. -/
inductive DerefDecision | fullCollapse | halfCollapse | refuse
deriving DecidableEq, Repr

/-- Tet `t` has a grandchild: some child of `t` itself has children. -/
def hasGrandchild (w : DerefWorld) (t : ℕ) : Bool :=
  (w.children t).any (fun c => !(w.children c).isEmpty)

/-- Modelled from the spec: one examination of a parent tet by
`mark_derefinement`.  A tet one of whose children itself has children is
skipped.  Otherwise the removal-safe points are counted and Algorithm 4's
decision table (abstracted as `table`, since the spec does not reproduce the
paper's concrete cases) is applied to the count; a tet that cannot derefine
on any edge (no removal-safe point), or whose count matches no case of the
table, or whose matched case is a refusal, unmarks `needsDerefinement` on
all of its children's edges; otherwise the marks are left unchanged. -/
def mark_derefinement_tet (w : DerefWorld) (table : ℕ → Option DerefDecision)
    (D : Finset GEdge) (t : ℕ) : Finset GEdge :=
  if hasGrandchild w t then D
  else if (removalSafe w D t).card = 0 then D \ w.childEdges t
  else
    match table (removalSafe w D t).card with
    | none => D \ w.childEdges t
    | some .refuse => D \ w.childEdges t
    | some _ => D

/-- Modelled from the spec: one full pass of `mark_derefinement` over the
candidate parent tets, repeated until stable. -/
def mark_derefinement_pass (w : DerefWorld) (table : ℕ → Option DerefDecision)
    (D : Finset GEdge) : Finset GEdge :=
  w.tets.foldl (mark_derefinement_tet w table) D

/-- The derefinement decisions recorded by a pass over marks `D`: the parent
tets that were examined (not skipped) and reached a decision-table case. -/
def derefinement_decisions (w : DerefWorld) (table : ℕ → Option DerefDecision)
    (D : Finset GEdge) : List (ℕ × DerefDecision) :=
  w.tets.filterMap (fun t =>
    if hasGrandchild w t then none
    else (table (removalSafe w D t).card).map (fun d => (t, d)))

/-- A one-parent derefinement world: parent `0` with two leaf children `1`
and `2`, one non-parent point `10` with incident child edges `(5,6)` and
`(6,7)`. -/
def smallDerefWorld : DerefWorld where
  tets := [0]
  children := fun t => if t = 0 then [1, 2] else []
  nonParentPts := fun t => if t = 0 then {10} else ∅
  incident := fun t p => if t = 0 ∧ p = 10 then {(5, 6), (6, 7)} else ∅
  childEdges := fun t => if t = 0 then {(5, 6), (6, 7), (7, 8)} else ∅

/-- A derefinement world with a grandchild: parent `0` has children `1` and
`2`, and child `1` itself has a child `3`. -/
def grandchildWorld : DerefWorld where
  tets := [0]
  children := fun t => if t = 0 then [1, 2] else if t = 1 then [3] else []
  nonParentPts := fun t => if t = 0 then {10} else ∅
  incident := fun t p => if t = 0 ∧ p = 10 then {(5, 6)} else ∅
  childEdges := fun t => if t = 0 then {(5, 6), (6, 7)} else ∅

/-- The bookkeeping record of one tetrahedron in the tet store: its node
ids, its refinement level, its parent and its current child list (empty iff
leaf).  Modelled from the spec and the documentation of `tet_store.cpp`. -/
structure TetRec where
  nodes : List ℕ
  level : ℕ
  parent : Option ℕ
  children : List ℕ
deriving DecidableEq, Repr

/-- Association-list lookup used by the stores (newest entry first). -/
def alookup {α β : Type} [DecidableEq α] : List (α × β) → α → Option β
  | [], _ => none
  | (k, v) :: rest, k' => if k' = k then some v else alookup rest k'

/-- Replace the value stored under an existing key of an association list. -/
def updateRec {α β : Type} [DecidableEq α] : List (α × β) → α → β → List (α × β)
  | [], _, _ => []
  | (k, v) :: rest, k', v' => if k' = k then (k', v') :: rest else (k, v) :: updateRec rest k' v'

/-- Modelled from the spec: the state owned by one partition's mesh adapter:
NodeConnectivity (the permanent edge-to-split-node map), the node-id
counter, the node coordinates, the edge store, the tet store, the tet-id
counter and the ActiveElementStore. -/
structure AMRState where
  nodeConn : List (GEdge × ℕ)
  nextNode : ℕ
  coord : List (ℕ × (ℚ × ℚ × ℚ))
  edges : Finset GEdge
  tets : List (ℕ × TetRec)
  nextTet : ℕ
  active : Finset ℕ
deriving DecidableEq

/-- Coordinates of a node (the external geometry callback's default for an
unknown id). -/
def lookupCoord (s : AMRState) (n : ℕ) : ℚ × ℚ × ℚ :=
  (alookup s.coord n).getD (0, 0, 0)

/-- The default geometry callback for a split node: the midpoint of the
split edge's endpoints. -/
def midCoord (s : AMRState) (e : GEdge) : ℚ × ℚ × ℚ :=
  let a := lookupCoord s e.1
  let b := lookupCoord s e.2
  ((a.1 + b.1) / 2, (a.2.1 + b.2.1) / 2, (a.2.2 + b.2.2) / 2)

/-- Modelled from the spec: `getOrCreateChildNode(edge) -> NodeId` of
NodeConnectivity: return the split node of an edge, creating a fresh node
(placed by the geometry callback) only when the edge has none; the
edge-to-node mapping, once created, is permanent. -/
def getOrCreateChildNode (s : AMRState) (e : GEdge) : ℕ × AMRState :=
  match alookup s.nodeConn e with
  | some n => (n, s)
  | none =>
    (s.nextNode,
      { s with
        nodeConn := (e, s.nextNode) :: s.nodeConn
        nextNode := s.nextNode + 1
        coord := (s.nextNode, midCoord s e) :: s.coord })

/-- Modelled from the spec: refine one edge `A-B`: resolve or create its
split node `Y` and make sure the parent edge and the child edges `A-Y` and
`Y-B` are present in the edge store; parent and child edges coexist
permanently. -/
def refineEdge (s : AMRState) (e : GEdge) : ℕ × AMRState :=
  let r := getOrCreateChildNode s e
  (r.1, { r.2 with
          edges := insert (normPair e.1 r.1) (insert (normPair r.1 e.2) (insert e r.2.edges)) })

/-- The global edge of local edge `i` of a tet whose node list is `ns`. -/
def recEdge (ns : List ℕ) (i : Fin 6) : GEdge :=
  normPair (ns.getD (edgeEnds i).1 0) (ns.getD (edgeEnds i).2 0)

/-- A child-tet vertex in a template's local connectivity table: either a
parent vertex or the split node of a parent edge. -/
abbrev CVert := Fin 4 ⊕ Fin 6

/-- Modelled from the spec: each template's fixed local connectivity table —
the vertex patterns of its child tets.  The 1:2 table replaces one endpoint
of the split edge by its split node; the 1:4 tables are the standard
opposite-edge-pair and face subdivisions; the 1:8 table is the standard
octasection, four corner children plus four octahedron children along the
diagonal joining the midpoints of edges `2` and `3`. -/
def childTable : Template → List (List CVert)
  | .oneToTwo e =>
    [(List.finRange 4).map (fun i => if i = (edgeEnds e).2 then Sum.inr e else Sum.inl i),
     (List.finRange 4).map (fun i => if i = (edgeEnds e).1 then Sum.inr e else Sum.inl i)]
  | .oneToFourOpp 0 =>
    [[.inl 0, .inr 0, .inl 2, .inr 5], [.inl 0, .inr 0, .inr 5, .inl 3],
     [.inr 0, .inl 1, .inl 2, .inr 5], [.inr 0, .inl 1, .inr 5, .inl 3]]
  | .oneToFourOpp 1 =>
    [[.inl 0, .inr 1, .inl 1, .inr 4], [.inl 0, .inr 1, .inr 4, .inl 3],
     [.inr 1, .inl 2, .inl 1, .inr 4], [.inr 1, .inl 2, .inr 4, .inl 3]]
  | .oneToFourOpp 2 =>
    [[.inl 0, .inr 2, .inl 1, .inr 3], [.inl 0, .inr 2, .inr 3, .inl 2],
     [.inr 2, .inl 3, .inl 1, .inr 3], [.inr 2, .inl 3, .inr 3, .inl 2]]
  | .oneToFourFace 0 =>
    [[.inl 0, .inr 0, .inr 1, .inl 3], [.inr 0, .inl 1, .inr 3, .inl 3],
     [.inr 1, .inr 3, .inl 2, .inl 3], [.inr 0, .inr 3, .inr 1, .inl 3]]
  | .oneToFourFace 1 =>
    [[.inl 0, .inr 0, .inr 2, .inl 2], [.inr 0, .inl 1, .inr 4, .inl 2],
     [.inr 2, .inr 4, .inl 3, .inl 2], [.inr 0, .inr 4, .inr 2, .inl 2]]
  | .oneToFourFace 2 =>
    [[.inl 0, .inr 1, .inr 2, .inl 1], [.inr 1, .inl 2, .inr 5, .inl 1],
     [.inr 2, .inr 5, .inl 3, .inl 1], [.inr 1, .inr 5, .inr 2, .inl 1]]
  | .oneToFourFace 3 =>
    [[.inl 1, .inr 3, .inr 4, .inl 0], [.inr 3, .inl 2, .inr 5, .inl 0],
     [.inr 4, .inr 5, .inl 3, .inl 0], [.inr 3, .inr 5, .inr 4, .inl 0]]
  | .oneToEight =>
    [[.inl 0, .inr 0, .inr 1, .inr 2], [.inr 0, .inl 1, .inr 3, .inr 4],
     [.inr 1, .inr 3, .inl 2, .inr 5], [.inr 2, .inr 4, .inr 5, .inl 3],
     [.inr 0, .inr 1, .inr 2, .inr 3], [.inr 0, .inr 2, .inr 4, .inr 3],
     [.inr 1, .inr 2, .inr 5, .inr 3], [.inr 2, .inr 4, .inr 5, .inr 3]]

/-- Resolve a child-table vertex against the parent's node list and the
split nodes of the parent's edges. -/
def resolveCVert (ns : List ℕ) (sn : Fin 6 → ℕ) : CVert → ℕ
  | .inl v => ns.getD v 0
  | .inr e => sn e

/-- The edge `e` has already been split in state `s`: its split node exists
in NodeConnectivity and the parent edge and both child edges are in the
edge store. -/
def EdgeSplitDone (s : AMRState) (e : GEdge) : Prop :=
  ∃ y, alookup s.nodeConn e = some y ∧ normPair e.1 y ∈ s.edges ∧
    normPair y e.2 ∈ s.edges ∧ e ∈ s.edges

/-- Refine each edge of a list in order. -/
def foldRefine (s : AMRState) (l : List GEdge) : AMRState :=
  l.foldl (fun s' e => (refineEdge s' e).2) s

/-- Modelled from the spec: resolve or create the split nodes of every edge
of the chosen template via NodeConnectivity, creating the child edges. -/
def splitTemplateEdges (s : AMRState) (ns : List ℕ) (tpl : Template) : AMRState :=
  foldRefine s ((tpl.edges.sort (· ≤ ·)).map (recEdge ns))

/-- The fresh ids assigned to the children of a refinement performed in
state `s` (`generate_child_ids`). -/
def childIds (s : AMRState) (tpl : Template) : List ℕ :=
  (List.range (childTable tpl).length).map (fun k => s.nextTet + k)

/-- The child tet records of a refinement of the tet record `r` (with id
`t`) by template `tpl`, with split nodes resolved in state `s1`. -/
def childRecs (s1 : AMRState) (t : ℕ) (r : TetRec) (tpl : Template) : List TetRec :=
  (childTable tpl).map (fun cv =>
    ({ nodes := cv.map (resolveCVert r.nodes
        (fun i => (alookup s1.nodeConn (recEdge r.nodes i)).getD 0)),
       level := r.level + 1, parent := some t, children := [] } : TetRec))

/-- Modelled from the spec: `refine` one active leaf tet with a chosen
template: create the split nodes and child edges, create the child tet
records following the template's connectivity table, set the parent/children
links, and replace the parent by its children in the ActiveElementStore. -/
def refineTet (s : AMRState) (t : ℕ) (tpl : Template) : AMRState :=
  match alookup s.tets t with
  | none => s
  | some r =>
    if t ∈ s.active ∧ r.children = [] then
      let s1 := splitTemplateEdges s r.nodes tpl
      { s1 with
        tets := ((childIds s tpl).zip (childRecs s1 t r tpl)) ++
          updateRec s1.tets t { r with children := childIds s tpl }
        nextTet := s.nextTet + (childIds s tpl).length
        active := (s.active.erase t) ∪ (childIds s tpl).toFinset }
    else s

/-- Modelled from the spec: `derefine` a previously refined tet: remove its
children from the ActiveElementStore, reinsert the parent and make it a leaf
again; the children's Tet/Edge/Node records and the NodeConnectivity entries
are left intact (records are never deleted, only deactivated). -/
def derefineTet (s : AMRState) (t : ℕ) : AMRState :=
  match alookup s.tets t with
  | none => s
  | some r =>
    if r.children = [] then s
    else
      { s with
        tets := updateRec s.tets t { r with children := [] }
        active := (s.active \ r.children.toFinset) ∪ {t} }

/-- Modelled from the spec: `activeConnectivity()` — the solver-visible
connectivity: each active tet id with its node ids, in id order. -/
def activeConnectivity (s : AMRState) : List (ℕ × List ℕ) :=
  (s.active.sort (· ≤ ·)).filterMap (fun t => (alookup s.tets t).map (fun r => (t, r.nodes)))

/-- Well-formedness of the adapter state: ids in the stores stay below the
id counters, NodeConnectivity's keys and values are duplicate-free, and tet
records only mention existing nodes. -/
structure Wf (s : AMRState) : Prop where
  nextNodePos : 0 < s.nextNode
  activeLt : ∀ t ∈ s.active, t < s.nextTet
  tetKeysLt : ∀ kv ∈ s.tets, kv.1 < s.nextTet
  tetNodesLt : ∀ kv ∈ s.tets, ∀ n ∈ (kv.2 : TetRec).nodes, n < s.nextNode
  connValsLt : ∀ ev ∈ s.nodeConn, (ev : GEdge × ℕ).2 < s.nextNode
  coordKeysLt : ∀ nv ∈ s.coord, (nv : ℕ × (ℚ × ℚ × ℚ)).1 < s.nextNode
  connValsNodup : (s.nodeConn.map Prod.snd).Nodup
  connKeysNodup : (s.nodeConn.map Prod.fst).Nodup

/-- Modelled from the spec and the `resizePostAMR` interface of
`DiagCG.hpp`: the `addedNodes` map handed back to the solver after an
adaptation cycle — each node id created since state `s`, keyed by the new
node id, with the edge the node splits; read off the NodeConnectivity
delta. -/
def addedNodes (s s' : AMRState) : List (ℕ × GEdge) :=
  (s'.nodeConn.take (s'.nodeConn.length - s.nodeConn.length)).map (fun ev => (ev.2, ev.1))

/-- The `addedTets` map handed back to the solver: each tet id created since
state `s`, mapped to its parent. -/
def addedTets (s s' : AMRState) : List (ℕ × Option ℕ) :=
  (s'.tets.take (s'.tets.length - s.tets.length)).map (fun kv => (kv.1, kv.2.parent))

/-- A single-tet state: tet `0` is active with nodes `0,1,2,3` at the
corners of the reference tetrahedron. -/
def oneTetState : AMRState where
  nodeConn := []
  nextNode := 4
  coord := [(0, (0, 0, 0)), (1, (1, 0, 0)), (2, (0, 1, 0)), (3, (0, 0, 1))]
  edges := {(0, 1), (0, 2), (0, 3), (1, 2), (1, 3), (2, 3)}
  tets := [(0, { nodes := [0, 1, 2, 3], level := 0, parent := none, children := [] })]
  nextTet := 1
  active := {0}

/-- A state in which the edge `(0,1)` already has the split node `2` and its
child edges, used to exercise the no-op law of edge refinement. -/
def splitEdgeState : AMRState where
  nodeConn := [((0, 1), 2)]
  nextNode := 3
  coord := [(2, (1/2, 0, 0)), (1, (1, 0, 0)), (0, (0, 0, 0))]
  edges := {(0, 1), (0, 2), (1, 2)}
  tets := []
  nextTet := 0
  active := ∅

/-- The error taxonomy of an adaptation cycle's invariant violations. -/
inductive AmrError | unsupportedPattern | danglingId | faceIncompatibility
deriving DecidableEq, Repr

/-- Modelled from the spec: apply one refinement job (an active tet id with
its marked local edges) during `perform_refinement`: a missing or inactive
id is a dangling-id violation, a marked set matching no supported template
is an unsupported-split-pattern violation; otherwise the tet is refined with
the matching template. -/
def performRefinementStep (s : AMRState) (job : ℕ × Finset (Fin 6)) :
    Except AmrError AMRState :=
  match alookup s.tets job.1 with
  | none => .error .danglingId
  | some _ =>
    if job.1 ∉ s.active then .error .danglingId
    else
      match classOneTemplate job.2 with
      | none => .error .unsupportedPattern
      | some tpl => .ok (refineTet s job.1 tpl)

/-- Modelled from the spec: one adaptation cycle of `perform_refinement`:
process every job; the cycle either completes wholly or aborts at the first
invariant violation. -/
def performRefinementCycle (s : AMRState) (jobs : List (ℕ × Finset (Fin 6))) :
    Except AmrError AMRState :=
  jobs.foldlM performRefinementStep s

/-- Modelled from the spec: the state the solver observes after an
adaptation cycle: the fully updated state when the cycle completed, the
untouched previous state when the cycle aborted (the ActiveElementStore is
updated transactionally, never partially). -/
def solverStateAfterCycle (s : AMRState) (jobs : List (ℕ × Finset (Fin 6))) : AMRState :=
  match performRefinementCycle s jobs with
  | .ok s' => s'
  | .error _ => s

/-- Modelled from the spec: `mark_uniform_refinement` — mark every edge of
every active tet for refinement, independently of the error indicator. -/
def mark_uniform_refinement (msh : Mesh) : Finset GEdge := msh.edges

/-- The initial-refinement schemes selectable in the input deck's `amr`
block. -/
inductive InitialAMR | uniform | indicatorDriven
deriving DecidableEq, Repr

/-- Modelled from the spec and the input deck (`amr  t0ref true  initial
uniform`): the configuration controlling initial (t=0) mesh refinement
before time stepping begins. -/
structure AmrConfig where
  t0ref : Bool
  initial : InitialAMR

/-- Modelled from the spec: the refinement marks used for initial (t=0) mesh
refinement: none when `t0ref` is off; uniform marking when `initial uniform`
is selected; otherwise the external error indicator's marks. -/
def t0RefinementMarks (cfg : AmrConfig) (msh : Mesh) (indicatorMarks : Finset GEdge) :
    Finset GEdge :=
  if cfg.t0ref then
    match cfg.initial with
    | .uniform => mark_uniform_refinement msh
    | .indicatorDriven => indicatorMarks
  else ∅

/-! ## Theorems -/

/-- One examination of a tet never removes a `needsRefinement` mark. -/
theorem markPassTet_grows : ∀ m : Finset (Fin 6), m ⊆ markPassTet m := by decide

/-- At a fixpoint of the per-tet marking the Refiner's chosen split is
exactly the marked-edge set. -/
theorem markPassTet_fixed_refinerSplit :
    ∀ m : Finset (Fin 6), markPassTet m = m → refinerSplit m = m := by decide

/-- At a fixpoint of the per-tet marking, no face of the tet has exactly two
marked edges, so every face's subdivision is a well-defined triangle
pattern. -/
theorem markPassTet_fixed_face_card :
    ∀ (m : Finset (Fin 6)) (f : Fin 4), markPassTet m = m → (faceEdges f ∩ m).card ≠ 2 := by
  decide

/-- C4: in each pass of `mark_refinement`, every active, unlocked tet with
at least one marked edge is classified by its marked-edge count and by
whether the marked edges all lie on one face; the compatibility classes are
tried in the fixed order 1, then 2, then 3, the first applicable wins; a
class-1 tet adds no marks and, among the class-1 templates consistent with
the marked set, the one producing the fewest child tets is chosen; a class-2
tet marks the fewest additional edges completing a proper template; a
class-3 tet marks all six edges.  (Modelled from the spec: the
`mesh_adapter` implementation is not in the tree.) -/
theorem mark_refinement_class_dispatch (m : Finset (Fin 6)) (hm : m ≠ ∅) :
    (classOf m = classTable m.card (decide (allOnOneFace m))) ∧
    (classOneApplicable m →
      markPassTet m = m ∧
      ∃ t, classOneTemplate m = some t ∧ t.edges = m ∧
        ∀ t' : Template, t'.edges = m → t.childCount ≤ t'.childCount) ∧
    (¬classOneApplicable m → classTwoApplicable m →
      ∃ t, classTwoTemplate m = some t ∧ markPassTet m = t.edges ∧ m ⊂ t.edges ∧
        t.childCount < 8 ∧
        ∀ t' : Template, t'.childCount < 8 → m ⊂ t'.edges →
          (t.edges \ m).card ≤ (t'.edges \ m).card) ∧
    (¬classOneApplicable m → ¬classTwoApplicable m → markPassTet m = Finset.univ) := by
  refine ⟨?_, ?_, ?_, ?_⟩
  · revert m
    decide
  · revert m
    decide
  · revert m
    decide
  · revert m
    decide

/-- C4 witness: two marked edges on one face are class 2. -/
theorem mark_refinement_class_dispatch_witness : classOf ({0, 1} : Finset (Fin 6)) = 2 :=
  ((mark_refinement_class_dispatch {0, 1} (by decide)).1).trans (by decide)

/-- C1: after `perform_refinement` on a marking left at `mark_refinement`'s
fixpoint, every two active tets sharing a face carry identical subdivision
patterns on that face, and the pattern is a well-defined triangle
subdivision (never exactly two split edges).  The compatibility is
established by the marking fixpoint hypothesis — the Refiner itself splits
exactly what the marking tells it to.  (Modelled from the spec: the AMR
implementation is not in the tree.) -/
theorem face_compatibility_after_performRefinement (msh : Mesh) (M : Finset GEdge)
    (hfix : ∀ t ∈ msh.tets, markPassTet (localMarked msh M t) = localMarked msh M t)
    (hinj : ∀ t ∈ msh.tets, Function.Injective (msh.tetEdge t))
    (t1 t2 : ℕ) (f1 f2 : Fin 4) (h1 : t1 ∈ msh.tets) (h2 : t2 ∈ msh.tets)
    (hshare : globalFace msh t1 f1 = globalFace msh t2 f2) :
    facePattern msh M t1 f1 = facePattern msh M t2 f2 ∧
    (facePattern msh M t1 f1).card ≠ 2 := by
  have hsplit : ∀ t ∈ msh.tets, refinerSplit (localMarked msh M t) = localMarked msh M t :=
    fun t ht => markPassTet_fixed_refinerSplit _ (hfix t ht)
  have hsubM : ∀ e ∈ performRefinementSplit msh M, e ∈ M := by
    intro e he
    rw [performRefinementSplit, Finset.mem_biUnion] at he
    obtain ⟨t, ht, he⟩ := he
    rw [hsplit t ht, Finset.mem_image] at he
    obtain ⟨i, hi, rfl⟩ := he
    exact (Finset.mem_filter.mp hi).2
  have hinM : ∀ t ∈ msh.tets, ∀ i : Fin 6, msh.tetEdge t i ∈ M →
      msh.tetEdge t i ∈ performRefinementSplit msh M := by
    intro t ht i hi
    rw [performRefinementSplit, Finset.mem_biUnion]
    refine ⟨t, ht, ?_⟩
    rw [hsplit t ht, Finset.mem_image]
    exact ⟨i, Finset.mem_filter.mpr ⟨Finset.mem_univ i, hi⟩, rfl⟩
  have hpat : ∀ t ∈ msh.tets, ∀ f : Fin 4,
      facePattern msh M t f = (globalFace msh t f).filter (fun e => e ∈ M) := by
    intro t ht f
    apply Finset.ext
    intro e
    rw [facePattern, Finset.mem_filter, Finset.mem_filter]
    constructor
    · rintro ⟨hface, hsplit'⟩
      exact ⟨hface, hsubM e hsplit'⟩
    · rintro ⟨hface, hM⟩
      refine ⟨hface, ?_⟩
      rw [globalFace, Finset.mem_image] at hface
      obtain ⟨i, _, rfl⟩ := hface
      exact hinM t ht i hM
  constructor
  · rw [hpat t1 h1 f1, hpat t2 h2 f2, hshare]
  · rw [hpat t1 h1 f1, globalFace, Finset.filter_image]
    rw [Finset.card_image_of_injOn ((hinj t1 h1).injOn)]
    have hloc : (faceEdges f1).filter (fun i => msh.tetEdge t1 i ∈ M) =
        faceEdges f1 ∩ localMarked msh M t1 := by
      apply Finset.ext
      intro i
      simp [localMarked, Finset.mem_filter, Finset.mem_inter]
    rw [hloc]
    exact markPassTet_fixed_face_card _ f1 (hfix t1 h1)

/-- C1 witness: the two tets of `twoTetMesh` share the face `{1,2,3}` (face
`3` of tet `0`, face `0` of tet `1`); with every edge marked the patterns
agree and are not two-edge patterns. -/
theorem face_compatibility_witness :
    facePattern twoTetMesh twoTetMesh.edges 0 3 = facePattern twoTetMesh twoTetMesh.edges 1 0 ∧
    (facePattern twoTetMesh twoTetMesh.edges 0 3).card ≠ 2 :=
  face_compatibility_after_performRefinement twoTetMesh twoTetMesh.edges
    (by decide) (by decide) 0 1 3 0 (by decide) (by decide) (by decide)

/-- A growing map on finite sets that stays inside a finite universe reaches
a fixpoint within `U.card` iterations. -/
theorem iterate_fix_of_grow {α : Type} [DecidableEq α] (f : Finset α → Finset α) (U : Finset α)
    (hgrow : ∀ s, s ⊆ f s) (hU : ∀ s, s ⊆ U → f s ⊆ U) (s0 : Finset α) (hs0 : s0 ⊆ U) :
    ∃ k ≤ U.card, f (f^[k] s0) = f^[k] s0 := by
  by_contra hcon
  push_neg at hcon
  have hsub : ∀ k, f^[k] s0 ⊆ U := by
    intro k
    induction k with
    | zero => simpa using hs0
    | succ n ih => rw [Function.iterate_succ_apply']; exact hU _ ih
  have hcard : ∀ k, k ≤ U.card + 1 → k ≤ (f^[k] s0).card := by
    intro k
    induction k with
    | zero => simp
    | succ n ih =>
      intro hk
      have hn := ih (by omega)
      have hne : f (f^[n] s0) ≠ f^[n] s0 := hcon n (by omega)
      have hss : f^[n] s0 ⊂ f (f^[n] s0) := (hgrow _).ssubset_of_ne (Ne.symm hne)
      have hlt := Finset.card_lt_card hss
      rw [Function.iterate_succ_apply']
      omega
  have h1 := hcard (U.card + 1) le_rfl
  have h2 := Finset.card_le_card (hsub (U.card + 1))
  omega

/-- A shrinking map on finite sets reaches a fixpoint within `s0.card`
iterations. -/
theorem iterate_fix_of_shrink {α : Type} [DecidableEq α] (f : Finset α → Finset α)
    (hshrink : ∀ s, f s ⊆ s) (s0 : Finset α) :
    ∃ k ≤ s0.card, f (f^[k] s0) = f^[k] s0 := by
  by_contra hcon
  push_neg at hcon
  have hcard : ∀ k, k ≤ s0.card + 1 → (f^[k] s0).card + k ≤ s0.card := by
    intro k
    induction k with
    | zero => simp
    | succ n ih =>
      intro hk
      have hn := ih (by omega)
      have hne : f (f^[n] s0) ≠ f^[n] s0 := hcon n (by omega)
      have hss : f (f^[n] s0) ⊂ f^[n] s0 := (hshrink _).ssubset_of_ne hne
      have hlt := Finset.card_lt_card hss
      rw [Function.iterate_succ_apply']
      omega
  have h1 := hcard (s0.card + 1) le_rfl
  omega

/-- A full `mark_refinement` pass only adds marks. -/
theorem mark_refinement_pass_grows (msh : Mesh) (M : Finset GEdge) :
    M ⊆ mark_refinement_pass msh M :=
  Finset.subset_union_left

/-- A full `mark_refinement` pass marks only mesh edges. -/
theorem mark_refinement_pass_bounded (msh : Mesh) (M : Finset GEdge) (hM : M ⊆ msh.edges) :
    mark_refinement_pass msh M ⊆ msh.edges := by
  refine Finset.union_subset hM ?_
  intro e he
  rw [Finset.mem_biUnion] at he
  obtain ⟨t, ht, he⟩ := he
  rw [Finset.mem_image] at he
  obtain ⟨i, _, rfl⟩ := he
  exact Finset.mem_biUnion.mpr ⟨t, ht, Finset.mem_image.mpr ⟨i, Finset.mem_univ i, rfl⟩⟩

/-- One `mark_derefinement` examination only unmarks or confirms. -/
theorem mark_derefinement_tet_shrinks (w : DerefWorld) (table : ℕ → Option DerefDecision)
    (D : Finset GEdge) (t : ℕ) : mark_derefinement_tet w table D t ⊆ D := by
  unfold mark_derefinement_tet
  split
  · exact subset_rfl
  · split
    · exact Finset.sdiff_subset
    · rcases table (removalSafe w D t).card with _ | d
      · exact Finset.sdiff_subset
      · cases d
        · exact subset_rfl
        · exact subset_rfl
        · exact Finset.sdiff_subset

/-- A full `mark_derefinement` pass only unmarks or confirms. -/
theorem mark_derefinement_pass_shrinks (w : DerefWorld) (table : ℕ → Option DerefDecision) :
    ∀ D, mark_derefinement_pass w table D ⊆ D := by
  suffices h : ∀ (l : List ℕ) (D : Finset GEdge),
      l.foldl (mark_derefinement_tet w table) D ⊆ D by
    intro D
    exact h w.tets D
  intro l
  induction l with
  | nil => intro D; exact subset_rfl
  | cons t rest ih =>
    intro D
    exact (ih (mark_derefinement_tet w table D t)).trans
      (mark_derefinement_tet_shrinks w table D t)

/-- Iterated `mark_derefinement` passes only unmark. -/
theorem mark_derefinement_iterate_shrinks (w : DerefWorld) (table : ℕ → Option DerefDecision)
    (D : Finset GEdge) (k : ℕ) : (mark_derefinement_pass w table)^[k] D ⊆ D := by
  induction k with
  | zero => simp
  | succ n ih =>
    rw [Function.iterate_succ_apply']
    exact (mark_derefinement_pass_shrinks w table _).trans ih

/-- C2 (amended): the iterative marking algorithms terminate — each
`mark_refinement` pass only adds `needsRefinement` marks over the finite
mesh edge set, so a fixpoint is reached within (number of mesh edges)
passes; symmetrically each `mark_derefinement` pass only unmarks or confirms
`needsDerefinement` flags and reaches a fixpoint within (number of initially
marked edges) passes.  The pass count is NOT bounded by the mesh's diameter
in edges (see the counterexample).  (Modelled from the spec: the
`mesh_adapter` implementation is not in the tree.) -/
theorem marking_fixpoint_termination (msh : Mesh) (M0 : Finset GEdge) (hM0 : M0 ⊆ msh.edges)
    (w : DerefWorld) (table : ℕ → Option DerefDecision) (D0 : Finset GEdge) :
    (∀ M, M ⊆ mark_refinement_pass msh M) ∧
    (∃ k ≤ msh.edges.card,
      mark_refinement_pass msh ((mark_refinement_pass msh)^[k] M0) =
        (mark_refinement_pass msh)^[k] M0) ∧
    (∀ D, mark_derefinement_pass w table D ⊆ D) ∧
    (∃ k ≤ D0.card,
      mark_derefinement_pass w table ((mark_derefinement_pass w table)^[k] D0) =
        (mark_derefinement_pass w table)^[k] D0) := by
  refine ⟨mark_refinement_pass_grows msh, ?_, mark_derefinement_pass_shrinks w table, ?_⟩
  · exact iterate_fix_of_grow (mark_refinement_pass msh) msh.edges
      (mark_refinement_pass_grows msh) (mark_refinement_pass_bounded msh) M0 hM0
  · exact iterate_fix_of_shrink (mark_derefinement_pass w table)
      (mark_derefinement_pass_shrinks w table) D0

/-- C2 witness: the termination bounds instantiated on the fan mesh and a
concrete derefinement world. -/
theorem marking_fixpoint_termination_witness :
    (∀ M, M ⊆ mark_refinement_pass fanMesh M) ∧
    (∃ k ≤ fanMesh.edges.card,
      mark_refinement_pass fanMesh ((mark_refinement_pass fanMesh)^[k] fanM0) =
        (mark_refinement_pass fanMesh)^[k] fanM0) ∧
    (∀ D, mark_derefinement_pass smallDerefWorld (fun _ => none) D ⊆ D) ∧
    (∃ k ≤ ({(5, 6)} : Finset GEdge).card,
      mark_derefinement_pass smallDerefWorld (fun _ => none)
          ((mark_derefinement_pass smallDerefWorld (fun _ => none))^[k] {(5, 6)}) =
        (mark_derefinement_pass smallDerefWorld (fun _ => none))^[k] {(5, 6)}) :=
  marking_fixpoint_termination fanMesh fanM0 (by decide) smallDerefWorld (fun _ => none) {(5, 6)}

/-- C2 counterexample: on a three-tet fan whose node graph has diameter
exactly `2` (in edges), `mark_refinement` still changes the marks in the
third pass, so the number of passes is not bounded by the mesh's diameter in
edges. -/
theorem mark_refinement_passes_exceed_diameter :
    fanM0 ⊆ fanMesh.edges ∧ diameterLE fanMesh 2 ∧ ¬diameterLE fanMesh 1 ∧
    mark_refinement_pass fanMesh ((mark_refinement_pass fanMesh)^[2] fanM0) ≠
      (mark_refinement_pass fanMesh)^[2] fanM0 := by
  decide

/-- C6: derefinement eligibility is evaluated only for tets whose children
have no further descendants: `mark_derefinement` skips a tet one of whose
children itself has children — the examination leaves the marks unchanged
and no derefinement decision is recorded for such a tet.  (Modelled from the
spec: the `mesh_adapter` implementation is not in the tree.) -/
theorem mark_derefinement_skips_grandchildren (w : DerefWorld)
    (table : ℕ → Option DerefDecision) (D : Finset GEdge) (t c : ℕ)
    (hc : c ∈ w.children t) (hcc : w.children c ≠ []) :
    mark_derefinement_tet w table D t = D ∧
    ∀ d, (t, d) ∉ derefinement_decisions w table D := by
  have hg : hasGrandchild w t = true := by
    rw [hasGrandchild, List.any_eq_true]
    exact ⟨c, hc, by simp [hcc]⟩
  constructor
  · rw [mark_derefinement_tet, if_pos hg]
  · intro d hd
    rw [derefinement_decisions, List.mem_filterMap] at hd
    obtain ⟨a, _, hfa⟩ := hd
    by_cases hga : hasGrandchild w a = true
    · rw [if_pos hga] at hfa
      exact Option.noConfusion hfa
    · rw [if_neg hga] at hfa
      rw [Option.map_eq_some'] at hfa
      obtain ⟨y, _, hy⟩ := hfa
      have ha : a = t := congrArg Prod.fst hy
      rw [ha] at hga
      exact hga hg

/-- C6 witness: the parent of `grandchildWorld` has a grandchild and is
skipped. -/
theorem mark_derefinement_skips_grandchildren_witness :
    mark_derefinement_tet grandchildWorld (fun _ => some .fullCollapse) {(5, 6)} 0 = {(5, 6)} ∧
    ∀ d, (0, d) ∉ derefinement_decisions grandchildWorld (fun _ => some .fullCollapse) {(5, 6)} :=
  mark_derefinement_skips_grandchildren grandchildWorld (fun _ => some .fullCollapse)
    {(5, 6)} 0 1 (by decide) (by decide)

/-- C5: during `mark_derefinement`, an examined tet that cannot derefine on
any edge (no removal-safe point), or whose removal-safe count matches no
case of Algorithm 4's decision table, unmarks `needsDerefinement` on all of
its children's edges; the passes never re-mark, so no derefinement can
subsequently happen on those edges.  (Modelled from the spec: the
`mesh_adapter` implementation is not in the tree.) -/
theorem mark_derefinement_veto_unmarks (w : DerefWorld) (table : ℕ → Option DerefDecision)
    (D : Finset GEdge) (t : ℕ) (hng : hasGrandchild w t = false)
    (hveto : (removalSafe w D t).card = 0 ∨ table (removalSafe w D t).card = none) :
    (∀ e ∈ w.childEdges t, e ∉ mark_derefinement_tet w table D t) ∧
    (∀ e ∈ w.childEdges t, ∀ D', D' ⊆ mark_derefinement_tet w table D t → ∀ k,
      e ∉ (mark_derefinement_pass w table)^[k] D') := by
  have hstep : mark_derefinement_tet w table D t = D \ w.childEdges t := by
    rw [mark_derefinement_tet, if_neg (by simp [hng])]
    by_cases hc : (removalSafe w D t).card = 0
    · rw [if_pos hc]
    · rw [if_neg hc]
      rcases hveto with h | h
      · exact absurd h hc
      · rw [h]
  have hout : ∀ e ∈ w.childEdges t, e ∉ mark_derefinement_tet w table D t := by
    intro e he hmem
    rw [hstep, Finset.mem_sdiff] at hmem
    exact hmem.2 he
  refine ⟨hout, ?_⟩
  intro e he D' hD' k hmem
  exact hout e he (hD' (mark_derefinement_iterate_shrinks w table D' k hmem))

/-- C5 witness: the parent of `smallDerefWorld` has no removal-safe point
for the marks `{(6,7)}`, so both of its children's marked edges are vetoed
and stay unmarked. -/
theorem mark_derefinement_veto_unmarks_witness :
    ((6, 7) : GEdge) ∉ mark_derefinement_tet smallDerefWorld (fun _ => none) {(6, 7)} 0 ∧
    ∀ k, ((6, 7) : GEdge) ∉ (mark_derefinement_pass smallDerefWorld (fun _ => none))^[k] ∅ :=
  ⟨(mark_derefinement_veto_unmarks smallDerefWorld (fun _ => none) {(6, 7)} 0 (by decide)
      (Or.inl (by decide))).1 (6, 7) (by decide),
   fun k => (mark_derefinement_veto_unmarks smallDerefWorld (fun _ => none) {(6, 7)} 0
      (by decide) (Or.inl (by decide))).2 (6, 7) (by decide) ∅ (Finset.empty_subset _) k⟩

/-- C8: the ActiveElementStore is updated transactionally at the end of an
adaptation cycle and never partially: a cycle that aborts with an invariant
violation (unsupported split pattern, dangling id) leaves the previous,
still-consistent state — in particular its ActiveElementStore — untouched,
and only a wholly successful cycle replaces it, so the solver never observes
a mesh mid-adaptation.  (Modelled from the spec: the `mesh_adapter`
implementation is not in the tree.) -/
theorem active_store_untouched_on_abort (s : AMRState) (jobs : List (ℕ × Finset (Fin 6))) :
    (∀ err, performRefinementCycle s jobs = .error err →
      solverStateAfterCycle s jobs = s ∧ (solverStateAfterCycle s jobs).active = s.active) ∧
    (∀ s', performRefinementCycle s jobs = .ok s' → solverStateAfterCycle s jobs = s') := by
  constructor
  · intro err h
    simp [solverStateAfterCycle, h]
  · intro s' h
    simp [solverStateAfterCycle, h]

/-- C8 witness: a cycle with an unsupported split pattern aborts and leaves
the single-tet state untouched. -/
theorem active_store_untouched_on_abort_witness :
    solverStateAfterCycle oneTetState [(0, {0, 1})] = oneTetState ∧
    (solverStateAfterCycle oneTetState [(0, {0, 1})]).active = oneTetState.active :=
  (active_store_untouched_on_abort oneTetState [(0, {0, 1})]).1 .unsupportedPattern (by rfl)

/-- C10: the mesh adapter exposes `mark_uniform_refinement`, which marks
every edge of every active tet for refinement independently of the error
indicator, and with the input deck's `amr t0ref true, initial uniform` it is
the marking used for initial (t=0) mesh refinement before time stepping
begins.  (Modelled from the spec and the `t0ref` input deck: the
`mesh_adapter` implementation is not in the tree.) -/
theorem mark_uniform_refinement_spec (msh : Mesh) :
    (∀ ind ind' : Finset GEdge,
      t0RefinementMarks ⟨true, .uniform⟩ msh ind = t0RefinementMarks ⟨true, .uniform⟩ msh ind') ∧
    (∀ ind : Finset GEdge,
      t0RefinementMarks ⟨true, .uniform⟩ msh ind = mark_uniform_refinement msh) ∧
    (∀ t ∈ msh.tets, localMarked msh (mark_uniform_refinement msh) t = Finset.univ) := by
  refine ⟨fun _ _ => rfl, fun _ => rfl, ?_⟩
  intro t ht
  apply Finset.ext
  intro i
  simp only [localMarked, Finset.mem_filter, Finset.mem_univ, true_and, iff_true]
  exact Finset.mem_biUnion.mpr ⟨t, ht, Finset.mem_image.mpr ⟨i, Finset.mem_univ i, rfl⟩⟩

/-- C10 witness: uniform t=0 marking fully marks tet `0` of the two-tet
mesh. -/
theorem mark_uniform_refinement_spec_witness :
    localMarked twoTetMesh (mark_uniform_refinement twoTetMesh) 0 = Finset.univ :=
  (mark_uniform_refinement_spec twoTetMesh).2.2 0 (by decide)

/-- A lookup that misses means the key is absent. -/
theorem alookup_eq_none {α β : Type} [DecidableEq α] (l : List (α × β)) (k : α) :
    alookup l k = none ↔ ∀ kv ∈ l, k ≠ kv.1 := by
  induction l with
  | nil => simp [alookup]
  | cons kv rest ih =>
    obtain ⟨a, b⟩ := kv
    by_cases h : k = a
    · subst h
      simp [alookup]
    · simp [alookup, h, ih]

/-- A lookup that hits returns a stored pair. -/
theorem alookup_mem {α β : Type} [DecidableEq α] {l : List (α × β)} {k : α} {v : β}
    (h : alookup l k = some v) : (k, v) ∈ l := by
  induction l with
  | nil => exact Option.noConfusion h
  | cons kv rest ih =>
    obtain ⟨a, b⟩ := kv
    by_cases hk : k = a
    · subst hk
      rw [alookup, if_pos rfl] at h
      obtain rfl := Option.some.inj h
      exact List.mem_cons_self _ _
    · rw [alookup, if_neg hk] at h
      exact List.mem_cons_of_mem _ (ih h)

/-- Looking up past a prefix that does not hold the key. -/
theorem alookup_append {α β : Type} [DecidableEq α] (l1 l2 : List (α × β)) (k : α)
    (h : ∀ kv ∈ l1, k ≠ kv.1) : alookup (l1 ++ l2) k = alookup l2 k := by
  induction l1 with
  | nil => rfl
  | cons kv rest ih =>
    obtain ⟨a, b⟩ := kv
    have hka : k ≠ a := h (a, b) (List.mem_cons_self _ _)
    rw [List.cons_append, alookup, if_neg hka]
    exact ih (fun kv hkv => h kv (List.mem_cons_of_mem _ hkv))

/-- Updating an existing key changes its looked-up value. -/
theorem alookup_updateRec_self {α β : Type} [DecidableEq α] {l : List (α × β)} {k : α}
    {w : β} (v : β) (h : alookup l k = some w) :
    alookup (updateRec l k v) k = some v := by
  induction l with
  | nil => exact Option.noConfusion h
  | cons kv rest ih =>
    obtain ⟨a, b⟩ := kv
    by_cases hk : k = a
    · subst hk
      rw [updateRec, if_pos rfl, alookup, if_pos rfl]
    · rw [alookup, if_neg hk] at h
      rw [updateRec, if_neg hk, alookup, if_neg hk]
      exact ih h

/-- Updating one key leaves other lookups unchanged. -/
theorem alookup_updateRec_ne {α β : Type} [DecidableEq α] (l : List (α × β)) (k : α)
    (v : β) (k' : α) (h : k' ≠ k) : alookup (updateRec l k v) k' = alookup l k' := by
  induction l with
  | nil => rfl
  | cons kv rest ih =>
    obtain ⟨a, b⟩ := kv
    by_cases hk : k = a
    · subst hk
      rw [updateRec, if_pos rfl, alookup, alookup]
      rw [if_neg h, if_neg h]
    · rw [updateRec, if_neg hk, alookup, alookup]
      by_cases hk' : k' = a
      · rw [if_pos hk', if_pos hk']
      · rw [if_neg hk', if_neg hk']
        exact ih

/-- Updating the same key twice keeps only the last value. -/
theorem updateRec_updateRec {α β : Type} [DecidableEq α] (l : List (α × β)) (k : α)
    (v v' : β) : updateRec (updateRec l k v) k v' = updateRec l k v' := by
  induction l with
  | nil => rfl
  | cons kv rest ih =>
    obtain ⟨a, b⟩ := kv
    by_cases hk : k = a
    · subst hk
      rw [updateRec, if_pos rfl, updateRec, if_pos rfl, updateRec, if_pos rfl]
    · rw [updateRec, if_neg hk, updateRec, if_neg hk, updateRec, if_neg hk, ih]

/-- Updating preserves the length of the store. -/
theorem updateRec_length {α β : Type} [DecidableEq α] (l : List (α × β)) (k : α) (v : β) :
    (updateRec l k v).length = l.length := by
  induction l with
  | nil => rfl
  | cons kv rest ih =>
    obtain ⟨a, b⟩ := kv
    by_cases hk : k = a
    · subst hk
      rw [updateRec, if_pos rfl, List.length_cons, List.length_cons]
    · rw [updateRec, if_neg hk, List.length_cons, List.length_cons, ih]

/-- With duplicate-free stored values, a value determines its key. -/
theorem nodup_snd_functional {α β : Type} {l : List (α × β)}
    (h : (l.map Prod.snd).Nodup) {a a' : α} {b : β}
    (h1 : (a, b) ∈ l) (h2 : (a', b) ∈ l) : a = a' := by
  induction l with
  | nil => exact absurd h1 (List.not_mem_nil _)
  | cons kv rest ih =>
    rw [List.map_cons, List.nodup_cons] at h
    rcases List.mem_cons.mp h1 with e1 | m1
    · rcases List.mem_cons.mp h2 with e2 | m2
      · exact congrArg Prod.fst (e1.trans e2.symm)
      · exfalso
        apply h.1
        have hkv : kv.2 = b := by rw [← e1]
        rw [hkv]
        exact List.mem_map.mpr ⟨(a', b), m2, rfl⟩
    · rcases List.mem_cons.mp h2 with e2 | m2
      · exfalso
        apply h.1
        have hkv : kv.2 = b := by rw [← e2]
        rw [hkv]
        exact List.mem_map.mpr ⟨(a, b), m1, rfl⟩
      · exact ih h.2 m1 m2

/-- Edge refinement does not touch the tet store, the tet counter or the
active store, and never decreases the node counter. -/
theorem refineEdge_state (s : AMRState) (e : GEdge) :
    ((refineEdge s e).2).tets = s.tets ∧ ((refineEdge s e).2).nextTet = s.nextTet ∧
    ((refineEdge s e).2).active = s.active ∧ s.nextNode ≤ ((refineEdge s e).2).nextNode := by
  cases hc : alookup s.nodeConn e <;>
    simp [refineEdge, getOrCreateChildNode, hc, Nat.le_succ]

/-- Edge refinement preserves every existing NodeConnectivity entry. -/
theorem refineEdge_conn_preserve (s : AMRState) (e e' : GEdge) (n : ℕ)
    (h : alookup s.nodeConn e' = some n) :
    alookup ((refineEdge s e).2).nodeConn e' = some n := by
  cases hc : alookup s.nodeConn e
  · have hne : e' ≠ e := by
      intro hh
      rw [hh, hc] at h
      exact Option.noConfusion h
    simp [refineEdge, getOrCreateChildNode, hc, alookup, hne, h]
  · simp [refineEdge, getOrCreateChildNode, hc, h]

/-- Edge refinement either reuses the stored split node (no NodeConnectivity
change) or prepends exactly one fresh entry. -/
theorem refineEdge_conn_cases (s : AMRState) (e : GEdge) :
    ((refineEdge s e).2).nodeConn = s.nodeConn ∧ ((refineEdge s e).2).nextNode = s.nextNode ∨
    ((refineEdge s e).2).nodeConn = (e, s.nextNode) :: s.nodeConn ∧
      ((refineEdge s e).2).nextNode = s.nextNode + 1 := by
  cases hc : alookup s.nodeConn e
  · right
    simp [refineEdge, getOrCreateChildNode, hc]
  · left
    simp [refineEdge, getOrCreateChildNode, hc]

/-- Edge refinement preserves the coordinates of existing nodes. -/
theorem refineEdge_coord_preserve (s : AMRState) (e : GEdge) (n : ℕ) (hn : n < s.nextNode) :
    alookup ((refineEdge s e).2).coord n = alookup s.coord n := by
  cases hc : alookup s.nodeConn e
  · simp [refineEdge, getOrCreateChildNode, hc, alookup, Nat.ne_of_lt hn]
  · simp [refineEdge, getOrCreateChildNode, hc]

/-- Edge refinement only adds edges to the edge store. -/
theorem refineEdge_edges_mono (s : AMRState) (e : GEdge) :
    s.edges ⊆ ((refineEdge s e).2).edges := by
  intro x hx
  cases hc : alookup s.nodeConn e <;>
    simp [refineEdge, getOrCreateChildNode, hc, Finset.mem_insert, hx]

/-- After refining an edge, its split node and child edges exist. -/
theorem refineEdge_establishes (s : AMRState) (e : GEdge) :
    EdgeSplitDone ((refineEdge s e).2) e := by
  cases hc : alookup s.nodeConn e
  · refine ⟨s.nextNode, ?_, ?_, ?_, ?_⟩ <;>
      simp [EdgeSplitDone, refineEdge, getOrCreateChildNode, hc, alookup, Finset.mem_insert]
  · rename_i y
    refine ⟨y, ?_, ?_, ?_, ?_⟩ <;>
      simp [EdgeSplitDone, refineEdge, getOrCreateChildNode, hc, Finset.mem_insert]

/-- Edge refinement preserves the already-split status of any edge. -/
theorem refineEdge_preserves_done (s : AMRState) (e e' : GEdge) (h : EdgeSplitDone s e') :
    EdgeSplitDone ((refineEdge s e).2) e' := by
  obtain ⟨y, h1, h2, h3, h4⟩ := h
  exact ⟨y, refineEdge_conn_preserve s e e' y h1, refineEdge_edges_mono s e h2,
    refineEdge_edges_mono s e h3, refineEdge_edges_mono s e h4⟩

/-- Refining an already-split edge is a no-op: it returns the existing split
node and leaves the state untouched. -/
theorem refineEdge_noop (s : AMRState) (e : GEdge) (h : EdgeSplitDone s e) :
    refineEdge s e = ((alookup s.nodeConn e).getD 0, s) := by
  obtain ⟨y, h1, h2, h3, h4⟩ := h
  simp only [refineEdge, getOrCreateChildNode, h1]
  rw [Finset.insert_eq_self.mpr h4, Finset.insert_eq_self.mpr h3, Finset.insert_eq_self.mpr h2]
  rfl

/-- Edge refinement preserves well-formedness of the state. -/
theorem refineEdge_wf (s : AMRState) (e : GEdge) (hw : Wf s) : Wf ((refineEdge s e).2) := by
  cases hc : alookup s.nodeConn e
  · have hkey : ∀ kv ∈ s.nodeConn, e ≠ kv.1 := (alookup_eq_none s.nodeConn e).mp hc
    have hstate : (refineEdge s e).2 =
        { s with nodeConn := (e, s.nextNode) :: s.nodeConn,
                 nextNode := s.nextNode + 1,
                 coord := (s.nextNode, midCoord s e) :: s.coord,
                 edges := insert (normPair e.1 s.nextNode)
                   (insert (normPair s.nextNode e.2) (insert e s.edges)) } := by
      simp [refineEdge, getOrCreateChildNode, hc]
    rw [hstate]
    constructor
    · exact Nat.lt_succ_of_lt hw.nextNodePos
    · exact hw.activeLt
    · exact hw.tetKeysLt
    · exact fun kv hkv n hn => Nat.lt_succ_of_lt (hw.tetNodesLt kv hkv n hn)
    · intro ev hev
      rcases List.mem_cons.mp hev with rfl | hmem
      · exact Nat.lt_succ_self _
      · exact Nat.lt_succ_of_lt (hw.connValsLt ev hmem)
    · intro nv hnv
      rcases List.mem_cons.mp hnv with rfl | hmem
      · exact Nat.lt_succ_self _
      · exact Nat.lt_succ_of_lt (hw.coordKeysLt nv hmem)
    · rw [List.map_cons, List.nodup_cons]
      refine ⟨?_, hw.connValsNodup⟩
      intro hmem
      obtain ⟨ev, hev, hev2⟩ := List.mem_map.mp hmem
      exact absurd (hev2 ▸ hw.connValsLt ev hev) (lt_irrefl _)
    · rw [List.map_cons, List.nodup_cons]
      refine ⟨?_, hw.connKeysNodup⟩
      intro hmem
      obtain ⟨ev, hev, hev2⟩ := List.mem_map.mp hmem
      exact hkey ev hev hev2.symm
  · rename_i y
    have hstate : (refineEdge s e).2 =
        { s with edges := insert (normPair e.1 y) (insert (normPair y e.2) (insert e s.edges)) } := by
      simp [refineEdge, getOrCreateChildNode, hc]
    rw [hstate]
    exact ⟨hw.nextNodePos, hw.activeLt, hw.tetKeysLt, hw.tetNodesLt, hw.connValsLt,
      hw.coordKeysLt, hw.connValsNodup, hw.connKeysNodup⟩

/-- Unfolding one step of `foldRefine`. -/
theorem foldRefine_cons (s : AMRState) (e : GEdge) (l : List GEdge) :
    foldRefine s (e :: l) = foldRefine ((refineEdge s e).2) l := rfl

/-- The fold of edge refinements does not touch the tet store, the tet counter or the active
store, and never decreases the node counter. -/
theorem foldRefine_state (l : List GEdge) (s : AMRState) :
    (foldRefine s l).tets = s.tets ∧ (foldRefine s l).nextTet = s.nextTet ∧
    (foldRefine s l).active = s.active ∧ s.nextNode ≤ (foldRefine s l).nextNode := by
  induction l generalizing s with
  | nil => exact ⟨rfl, rfl, rfl, le_rfl⟩
  | cons e rest ih =>
    obtain ⟨h1, h2, h3, h4⟩ := refineEdge_state s e
    obtain ⟨g1, g2, g3, g4⟩ := ih ((refineEdge s e).2)
    exact ⟨g1.trans h1, g2.trans h2, g3.trans h3, h4.trans g4⟩

/-- The fold of edge refinements preserves every existing NodeConnectivity entry. -/
theorem foldRefine_conn_preserve (l : List GEdge) (s : AMRState) (e' : GEdge) (n : ℕ)
    (h : alookup s.nodeConn e' = some n) :
    alookup (foldRefine s l).nodeConn e' = some n := by
  induction l generalizing s with
  | nil => exact h
  | cons e rest ih => exact ih _ (refineEdge_conn_preserve s e e' n h)

/-- The fold of edge refinements preserves the coordinates of existing nodes. -/
theorem foldRefine_coord_preserve (l : List GEdge) (s : AMRState) (n : ℕ)
    (hn : n < s.nextNode) :
    alookup (foldRefine s l).coord n = alookup s.coord n := by
  induction l generalizing s with
  | nil => rfl
  | cons e rest ih =>
    rw [foldRefine_cons, ih _ (lt_of_lt_of_le hn (refineEdge_state s e).2.2.2),
      refineEdge_coord_preserve s e n hn]

/-- The fold of edge refinements only adds edges to the edge store. -/
theorem foldRefine_edges_mono (l : List GEdge) (s : AMRState) :
    s.edges ⊆ (foldRefine s l).edges := by
  induction l generalizing s with
  | nil => exact subset_rfl
  | cons e rest ih => exact (refineEdge_edges_mono s e).trans (ih _)

/-- The fold of edge refinements preserves the already-split status of any edge. -/
theorem foldRefine_preserves_done (l : List GEdge) (s : AMRState) (e' : GEdge)
    (h : EdgeSplitDone s e') : EdgeSplitDone (foldRefine s l) e' := by
  induction l generalizing s with
  | nil => exact h
  | cons e rest ih => exact ih _ (refineEdge_preserves_done s e e' h)

/-- After `foldRefine`, every edge of the list has been split. -/
theorem foldRefine_done (l : List GEdge) (s : AMRState) :
    ∀ e ∈ l, EdgeSplitDone (foldRefine s l) e := by
  induction l generalizing s with
  | nil =>
    intro e he
    exact absurd he (List.not_mem_nil e)
  | cons x rest ih =>
    intro e he
    rcases List.mem_cons.mp he with rfl | hmem
    · exact foldRefine_preserves_done rest _ e (refineEdge_establishes s e)
    · exact ih _ e hmem

/-- A fold of edge refinements over edges that are all already split is the identity. -/
theorem foldRefine_noop (l : List GEdge) (s : AMRState) (h : ∀ e ∈ l, EdgeSplitDone s e) :
    foldRefine s l = s := by
  induction l with
  | nil => rfl
  | cons e rest ih =>
    have hsnd : (refineEdge s e).2 = s :=
      congrArg Prod.snd (refineEdge_noop s e (h e (List.mem_cons_self _ _)))
    rw [foldRefine_cons, hsnd]
    exact ih (fun x hx => h x (List.mem_cons_of_mem _ hx))

/-- The fold of edge refinements preserves well-formedness of the state. -/
theorem foldRefine_wf (l : List GEdge) (s : AMRState) (hw : Wf s) : Wf (foldRefine s l) := by
  induction l generalizing s with
  | nil => exact hw
  | cons e rest ih => exact ih _ (refineEdge_wf s e hw)

/-- The fold of edge refinements prepends to NodeConnectivity a block of fresh entries keyed
by edges of the refined list. -/
theorem foldRefine_delta (l : List GEdge) (s : AMRState) :
    ∃ pre, (foldRefine s l).nodeConn = pre ++ s.nodeConn ∧
      ∀ ev ∈ pre, s.nextNode ≤ (ev : GEdge × ℕ).2 ∧ ev.1 ∈ l := by
  induction l generalizing s with
  | nil =>
    refine ⟨[], rfl, ?_⟩
    intro ev hev
    exact absurd hev (List.not_mem_nil ev)
  | cons e rest ih =>
    rcases refineEdge_conn_cases s e with ⟨h1, h2⟩ | ⟨h1, h2⟩
    · obtain ⟨pre, hp, hcond⟩ := ih ((refineEdge s e).2)
      refine ⟨pre, ?_, ?_⟩
      · rw [foldRefine_cons, hp, h1]
      · intro ev hev
        obtain ⟨ha, hb⟩ := hcond ev hev
        rw [h2] at ha
        exact ⟨ha, List.mem_cons_of_mem _ hb⟩
    · obtain ⟨pre, hp, hcond⟩ := ih ((refineEdge s e).2)
      refine ⟨pre ++ [(e, s.nextNode)], ?_, ?_⟩
      · rw [foldRefine_cons, hp, h1, List.append_assoc]
        rfl
      · intro ev hev
        rcases List.mem_append.mp hev with hpre | hsingle
        · obtain ⟨ha, hb⟩ := hcond ev hpre
          rw [h2] at ha
          exact ⟨by omega, List.mem_cons_of_mem _ hb⟩
        · rw [List.mem_singleton] at hsingle
          subst hsingle
          exact ⟨le_rfl, List.mem_cons_self _ _⟩

/-- Every template produces at least one child. -/
theorem childTable_length_pos : ∀ tpl : Template, 0 < (childTable tpl).length := by decide

/-- The fresh child-id list is never empty. -/
theorem childIds_ne_nil (s : AMRState) (tpl : Template) : childIds s tpl ≠ [] := by
  apply List.ne_nil_of_length_pos
  simpa [childIds] using childTable_length_pos tpl

/-- Fresh child ids start at the tet counter. -/
theorem childIds_ge (s : AMRState) (tpl : Template) :
    ∀ c ∈ childIds s tpl, s.nextTet ≤ c := by
  intro c hc
  rw [childIds, List.mem_map] at hc
  obtain ⟨k, _, rfl⟩ := hc
  exact Nat.le_add_right _ _

/-- The characterization of a successful `refineTet`. -/
theorem refineTet_eq (s : AMRState) (t : ℕ) (tpl : Template) (r : TetRec)
    (hr : alookup s.tets t = some r) (ht : t ∈ s.active) (hleaf : r.children = []) :
    refineTet s t tpl =
      { splitTemplateEdges s r.nodes tpl with
        tets := ((childIds s tpl).zip (childRecs (splitTemplateEdges s r.nodes tpl) t r tpl)) ++
          updateRec (splitTemplateEdges s r.nodes tpl).tets t { r with children := childIds s tpl }
        nextTet := s.nextTet + (childIds s tpl).length
        active := (s.active.erase t) ∪ (childIds s tpl).toFinset } := by
  unfold refineTet
  split
  · rename_i heq
    rw [heq] at hr
    exact Option.noConfusion hr
  · rename_i r' heq
    rw [heq] at hr
    obtain rfl := Option.some.inj hr
    rw [if_pos ⟨ht, hleaf⟩]

/-- The characterization of a successful `derefineTet`. -/
theorem derefineTet_eq (s : AMRState) (t : ℕ) (r : TetRec)
    (hr : alookup s.tets t = some r) (hne : r.children ≠ []) :
    derefineTet s t =
      { s with tets := updateRec s.tets t { r with children := [] },
               active := (s.active \ r.children.toFinset) ∪ {t} } := by
  unfold derefineTet
  split
  · rename_i heq
    rw [heq] at hr
    exact Option.noConfusion hr
  · rename_i r' heq
    rw [heq] at hr
    obtain rfl := Option.some.inj hr
    rw [if_neg hne]

/-- C3: `refine` on a tet followed by `derefine` on the same tet, with no
intervening solver step, restores the original active connectivity (the
ActiveElementStore and each active tet's node ids) and the original node
coordinates exactly, and a subsequent re-refinement reuses the same node and
edge ids via the permanent NodeConnectivity mapping (NodeConnectivity, node
counter, coordinates and edge store are all unchanged by the re-refinement);
this relies on Tet/Edge/Node records being deactivated, never deleted.
(Modelled from the spec: `refinement.hpp` is not in the tree.) -/
theorem refine_derefine_roundtrip (s : AMRState) (t : ℕ) (tpl : Template) (r : TetRec)
    (hw : Wf s) (ht : t ∈ s.active) (hr : alookup s.tets t = some r) (hleaf : r.children = []) :
    (derefineTet (refineTet s t tpl) t).active = s.active ∧
    activeConnectivity (derefineTet (refineTet s t tpl) t) = activeConnectivity s ∧
    (∀ n, n < s.nextNode →
      lookupCoord (derefineTet (refineTet s t tpl) t) n = lookupCoord s n) ∧
    (refineTet (derefineTet (refineTet s t tpl) t) t tpl).nodeConn =
      (refineTet s t tpl).nodeConn ∧
    (refineTet (derefineTet (refineTet s t tpl) t) t tpl).nextNode =
      (refineTet s t tpl).nextNode ∧
    (refineTet (derefineTet (refineTet s t tpl) t) t tpl).coord = (refineTet s t tpl).coord ∧
    (refineTet (derefineTet (refineTet s t tpl) t) t tpl).edges = (refineTet s t tpl).edges := by
  have hEtets : (splitTemplateEdges s r.nodes tpl).tets = s.tets := (foldRefine_state _ s).1
  have htlt : t < s.nextTet := hw.activeLt t ht
  have hzipkeys' : ∀ u, u < s.nextTet →
      ∀ kv ∈ (childIds s tpl).zip (childRecs (splitTemplateEdges s r.nodes tpl) t r tpl),
        u ≠ (kv : ℕ × TetRec).1 := by
    intro u hu kv hkv heq
    obtain ⟨a, b⟩ := kv
    have hge := childIds_ge s tpl a (List.of_mem_zip hkv).1
    simp only at heq
    omega
  have hs1 := refineTet_eq s t tpl r hr ht hleaf
  have hs1tets : (refineTet s t tpl).tets =
      ((childIds s tpl).zip (childRecs (splitTemplateEdges s r.nodes tpl) t r tpl)) ++
        updateRec (splitTemplateEdges s r.nodes tpl).tets t
          { r with children := childIds s tpl } := by rw [hs1]
  have hs1active : (refineTet s t tpl).active =
      (s.active.erase t) ∪ (childIds s tpl).toFinset := by rw [hs1]
  have hs1conn : (refineTet s t tpl).nodeConn = (splitTemplateEdges s r.nodes tpl).nodeConn := by
    rw [hs1]
  have hs1coord : (refineTet s t tpl).coord = (splitTemplateEdges s r.nodes tpl).coord := by
    rw [hs1]
  have hs1edges : (refineTet s t tpl).edges = (splitTemplateEdges s r.nodes tpl).edges := by
    rw [hs1]
  have hs1nn : (refineTet s t tpl).nextNode = (splitTemplateEdges s r.nodes tpl).nextNode := by
    rw [hs1]
  have hlookE : alookup (splitTemplateEdges s r.nodes tpl).tets t = some r := by
    rw [hEtets]
    exact hr
  have hlook1 : alookup (refineTet s t tpl).tets t =
      some { r with children := childIds s tpl } := by
    rw [hs1tets, alookup_append _ _ t (hzipkeys' t htlt)]
    exact alookup_updateRec_self _ hlookE
  have hne1 : ({ r with children := childIds s tpl } : TetRec).children ≠ [] := by
    simpa using childIds_ne_nil s tpl
  have hd := derefineTet_eq (refineTet s t tpl) t { r with children := childIds s tpl }
    hlook1 hne1
  have hrr : ({ r with children := [] } : TetRec) = r := by
    obtain ⟨n4, lv, pa, ch⟩ := r
    simp only at hleaf
    subst hleaf
    rfl
  have hs2tets : (derefineTet (refineTet s t tpl) t).tets =
      updateRec (refineTet s t tpl).tets t { r with children := [] } := by rw [hd]
  have hs2active : (derefineTet (refineTet s t tpl) t).active =
      ((refineTet s t tpl).active \ (childIds s tpl).toFinset) ∪ {t} := by rw [hd]
  have hs2conn : (derefineTet (refineTet s t tpl) t).nodeConn =
      (refineTet s t tpl).nodeConn := by rw [hd]
  have hs2coord : (derefineTet (refineTet s t tpl) t).coord = (refineTet s t tpl).coord := by
    rw [hd]
  have hs2edges : (derefineTet (refineTet s t tpl) t).edges = (refineTet s t tpl).edges := by
    rw [hd]
  have hs2nn : (derefineTet (refineTet s t tpl) t).nextNode =
      (refineTet s t tpl).nextNode := by rw [hd]
  have hdisj : ∀ c ∈ (childIds s tpl).toFinset, c ∉ s.active := by
    intro c hc hca
    have h1 := childIds_ge s tpl c (List.mem_toFinset.mp hc)
    have h2 := hw.activeLt c hca
    omega
  have hactive : (derefineTet (refineTet s t tpl) t).active = s.active := by
    rw [hs2active, hs1active]
    apply Finset.ext
    intro x
    simp only [Finset.mem_union, Finset.mem_sdiff, Finset.mem_erase, Finset.mem_singleton]
    constructor
    · rintro (⟨⟨hne, hx⟩ | hcid, hnc⟩ | rfl)
      · exact hx
      · exact absurd hcid hnc
      · exact ht
    · intro hx
      by_cases hxt : x = t
      · right
        exact hxt
      · left
        exact ⟨Or.inl ⟨hxt, hx⟩, fun hc => hdisj x hc hx⟩
  have hlook2 : alookup (derefineTet (refineTet s t tpl) t).tets t = some r := by
    have hsome := alookup_updateRec_self ({ r with children := [] } : TetRec) hlook1
    rw [hs2tets, hsome, hrr]
  have hlookup_other : ∀ u ∈ s.active,
      alookup (derefineTet (refineTet s t tpl) t).tets u = alookup s.tets u := by
    intro u hu
    by_cases hut : u = t
    · subst hut
      rw [hlook2, hr]
    · rw [hs2tets, alookup_updateRec_ne _ _ _ _ hut, hs1tets,
        alookup_append _ _ u (hzipkeys' u (hw.activeLt u hu)),
        alookup_updateRec_ne _ _ _ _ hut, hEtets]
  have hconn_eq : activeConnectivity (derefineTet (refineTet s t tpl) t) =
      activeConnectivity s := by
    rw [activeConnectivity, activeConnectivity, hactive]
    apply List.filterMap_congr
    intro u hu
    rw [hlookup_other u (Finset.mem_sort (· ≤ ·) |>.mp hu)]
  have hcoord : ∀ n, n < s.nextNode →
      lookupCoord (derefineTet (refineTet s t tpl) t) n = lookupCoord s n := by
    intro n hn
    rw [lookupCoord, lookupCoord, hs2coord, hs1coord]
    exact congrArg (fun o => o.getD ((0 : ℚ), (0 : ℚ), (0 : ℚ)))
      (foldRefine_coord_preserve _ s n hn)
  have ht2 : t ∈ (derefineTet (refineTet s t tpl) t).active := by
    rw [hactive]
    exact ht
  have hs3 := refineTet_eq (derefineTet (refineTet s t tpl) t) t tpl r hlook2 ht2 hleaf
  have hdone : ∀ e ∈ (tpl.edges.sort (· ≤ ·)).map (recEdge r.nodes),
      EdgeSplitDone (derefineTet (refineTet s t tpl) t) e := by
    intro e he
    obtain ⟨y, hy1, hy2, hy3, hy4⟩ := foldRefine_done _ s e he
    refine ⟨y, ?_, ?_, ?_, ?_⟩
    · rw [hs2conn, hs1conn]
      exact hy1
    · rw [hs2edges, hs1edges]
      exact hy2
    · rw [hs2edges, hs1edges]
      exact hy3
    · rw [hs2edges, hs1edges]
      exact hy4
  have hE2 : splitTemplateEdges (derefineTet (refineTet s t tpl) t) r.nodes tpl =
      derefineTet (refineTet s t tpl) t := foldRefine_noop _ _ hdone
  refine ⟨hactive, hconn_eq, hcoord, ?_, ?_, ?_, ?_⟩
  · rw [hs3, hE2]
    exact hs2conn
  · rw [hs3, hE2]
    exact hs2nn
  · rw [hs3, hE2]
    exact hs2coord
  · rw [hs3, hE2]
    exact hs2edges


theorem refineTet_conn_preserve (s : AMRState) (t : ℕ) (tpl : Template) (e : GEdge) (n : ℕ)
    (h : alookup s.nodeConn e = some n) :
    alookup (refineTet s t tpl).nodeConn e = some n := by
  unfold refineTet
  split
  · exact h
  · rename_i r heq
    split
    · show alookup (splitTemplateEdges s r.nodes tpl).nodeConn e = some n
      exact foldRefine_conn_preserve _ s e n h
    · exact h

theorem derefineTet_conn_preserve (s : AMRState) (t : ℕ) (e : GEdge) (n : ℕ)
    (h : alookup s.nodeConn e = some n) :
    alookup (derefineTet s t).nodeConn e = some n := by
  unfold derefineTet
  split
  · exact h
  · split
    · exact h
    · exact h

theorem alookup_of_mem_nodup {α β : Type} [DecidableEq α] {l : List (α × β)}
    (hnd : (l.map Prod.fst).Nodup) {k : α} {v : β} (h : (k, v) ∈ l) :
    alookup l k = some v := by
  induction l with
  | nil => exact absurd h (List.not_mem_nil _)
  | cons kv rest ih =>
    rw [List.map_cons, List.nodup_cons] at hnd
    rcases List.mem_cons.mp h with rfl | hmem
    · rw [alookup, if_pos rfl]
    · obtain ⟨a, b⟩ := kv
      by_cases hk : k = a
      · exfalso
        subst hk
        exact hnd.1 (List.mem_map.mpr ⟨(k, v), hmem, rfl⟩)
      · rw [alookup, if_neg hk]
        exact ih hnd.2 hmem

theorem getD_lt_of_forall {l : List ℕ} {N : ℕ} (hl : ∀ n ∈ l, n < N) (hN : 0 < N) (i : ℕ) :
    l.getD i 0 < N := by
  by_cases hi : i < l.length
  · rw [List.getD_eq_get l 0 hi]
    exact hl _ (l.get_mem _ _)
  · rw [List.getD_eq_default l 0 (Nat.le_of_not_lt hi)]
    exact hN

theorem normPair_comp (a b : ℕ) :
    (normPair a b).1 = a ∧ (normPair a b).2 = b ∨
    (normPair a b).1 = b ∧ (normPair a b).2 = a := by
  rw [normPair]
  split
  · left
    exact ⟨rfl, rfl⟩
  · right
    exact ⟨rfl, rfl⟩

theorem recEdge_lt {ns : List ℕ} {N : ℕ} (h : ∀ n ∈ ns, n < N) (hN : 0 < N) (i : Fin 6) :
    (recEdge ns i).1 < N ∧ (recEdge ns i).2 < N := by
  rw [recEdge]
  rcases normPair_comp (ns.getD (edgeEnds i).1 0) (ns.getD (edgeEnds i).2 0) with
    ⟨h1, h2⟩ | ⟨h1, h2⟩ <;>
    rw [h1, h2] <;>
    exact ⟨getD_lt_of_forall h hN _, getD_lt_of_forall h hN _⟩

/-- C7: `getOrCreateChildNode` is idempotent — a second call for an edge
with a split node returns the same node id and leaves the state unchanged;
refining an already-split edge is a no-op reusing the split node and the
child edges `A-Y`, `Y-B`; the edge-to-node mapping is permanent under edge
refinement, tet refinement and derefinement, and a node id is never mapped
from two different edges.  (Modelled from the spec: `node_connectivity.cpp`
and `edge_store.cpp` are not in the tree.) -/
theorem getOrCreateChildNode_idempotent :
    (∀ (s : AMRState) (e : GEdge),
      getOrCreateChildNode ((getOrCreateChildNode s e).2) e = getOrCreateChildNode s e) ∧
    (∀ (s : AMRState) (e : GEdge), EdgeSplitDone s e →
      refineEdge s e = ((alookup s.nodeConn e).getD 0, s)) ∧
    (∀ (s : AMRState) (e e' : GEdge) (n : ℕ), alookup s.nodeConn e' = some n →
      alookup ((refineEdge s e).2).nodeConn e' = some n) ∧
    (∀ (s : AMRState) (t : ℕ) (tpl : Template) (e : GEdge) (n : ℕ),
      alookup s.nodeConn e = some n → alookup (refineTet s t tpl).nodeConn e = some n) ∧
    (∀ (s : AMRState) (t : ℕ) (e : GEdge) (n : ℕ),
      alookup s.nodeConn e = some n → alookup (derefineTet s t).nodeConn e = some n) ∧
    (∀ (s : AMRState) (e e' : GEdge) (n : ℕ), Wf s →
      (e, n) ∈ s.nodeConn → (e', n) ∈ s.nodeConn → e = e') ∧
    (∀ (s : AMRState) (e : GEdge), Wf s → Wf ((refineEdge s e).2)) := by
  refine ⟨?_, ?_, refineEdge_conn_preserve, refineTet_conn_preserve,
    derefineTet_conn_preserve, ?_, fun s e hw => refineEdge_wf s e hw⟩
  · intro s e
    cases hc : alookup s.nodeConn e <;>
      simp [getOrCreateChildNode, hc, alookup]
  · intro s e h
    exact refineEdge_noop s e h
  · intro s e e' n hw h1 h2
    exact nodup_snd_functional hw.connValsNodup h1 h2

theorem getOrCreateChildNode_idempotent_witness :
    refineEdge splitEdgeState (0, 1) =
      ((alookup splitEdgeState.nodeConn (0, 1)).getD 0, splitEdgeState) ∧
    getOrCreateChildNode ((getOrCreateChildNode splitEdgeState (0, 1)).2) (0, 1) =
      getOrCreateChildNode splitEdgeState (0, 1) :=
  ⟨getOrCreateChildNode_idempotent.2.1 splitEdgeState (0, 1)
      ⟨2, by decide, by decide, by decide, by decide⟩,
   getOrCreateChildNode_idempotent.1 splitEdgeState (0, 1)⟩


/-- C9: when the refiner hands the adapted mesh back to the solver
(`resizePostAMR`), every node added by the cycle is reported keyed by its
new node id with the one edge (a pair of pre-existing node ids) that it
splits — each added node is associated with exactly one parent edge — and
every added tet is reported mapped to its parent.  (The interface shape is
declared in `DiagCG.hpp`; the refiner is modelled from the spec.) -/
theorem resizePostAMR_added_maps (s : AMRState) (t : ℕ) (tpl : Template) (hw : Wf s) :
    (∀ p ∈ addedNodes s (refineTet s t tpl),
      alookup (refineTet s t tpl).nodeConn (p : ℕ × GEdge).2 = some p.1 ∧
      s.nextNode ≤ p.1 ∧ p.2.1 < s.nextNode ∧ p.2.2 < s.nextNode ∧
      (∀ e', (e', p.1) ∈ (refineTet s t tpl).nodeConn → e' = p.2)) ∧
    ((addedNodes s (refineTet s t tpl)).map Prod.fst).Nodup ∧
    (∀ q ∈ addedTets s (refineTet s t tpl),
      (q : ℕ × Option ℕ).2 = some t ∧ s.nextTet ≤ q.1) := by
  rcases hlt : alookup s.tets t with _ | r
  · have hid : refineTet s t tpl = s := by
      unfold refineTet
      rw [hlt]
    rw [hid]
    refine ⟨?_, ?_, ?_⟩
    · intro p hp
      simp [addedNodes] at hp
    · simp [addedNodes]
    · intro q hq
      simp [addedTets] at hq
  · by_cases hcond : t ∈ s.active ∧ r.children = []
    · have hs1 := refineTet_eq s t tpl r hlt hcond.1 hcond.2
      have hEtets : (splitTemplateEdges s r.nodes tpl).tets = s.tets := (foldRefine_state _ s).1
      obtain ⟨pre, hpre, hprecond⟩ :=
        foldRefine_delta ((tpl.edges.sort (· ≤ ·)).map (recEdge r.nodes)) s
      have hconnE : (refineTet s t tpl).nodeConn = pre ++ s.nodeConn := by
        rw [hs1]
        exact hpre
      have hwE : Wf (splitTemplateEdges s r.nodes tpl) := foldRefine_wf _ s hw
      have hndv : ((pre ++ s.nodeConn).map Prod.snd).Nodup := by
        rw [← hpre]
        exact hwE.connValsNodup
      have hndk : ((pre ++ s.nodeConn).map Prod.fst).Nodup := by
        rw [← hpre]
        exact hwE.connKeysNodup
      have htake : addedNodes s (refineTet s t tpl) = pre.map (fun ev => (ev.2, ev.1)) := by
        rw [addedNodes, hconnE, List.length_append, Nat.add_sub_cancel, List.take_left]
      have hrnodes : ∀ n ∈ r.nodes, n < s.nextNode :=
        hw.tetNodesLt (t, r) (alookup_mem hlt)
      refine ⟨?_, ?_, ?_⟩
      · intro p hp
        rw [htake, List.mem_map] at hp
        obtain ⟨ev, hev, rfl⟩ := hp
        obtain ⟨hv, hkey⟩ := hprecond ev hev
        obtain ⟨a, b⟩ := ev
        rw [List.mem_map] at hkey
        obtain ⟨i, _, hi⟩ := hkey
        have hends := recEdge_lt hrnodes hw.nextNodePos i
        rw [hi] at hends
        refine ⟨?_, hv, hends.1, hends.2, ?_⟩
        · rw [hconnE]
          exact alookup_of_mem_nodup hndk (List.mem_append_left _ hev)
        · intro e' he'
          rw [hconnE] at he'
          exact nodup_snd_functional hndv he' (List.mem_append_left _ hev)
      · rw [htake, List.map_map]
        have hsub : (pre.map Prod.snd).Nodup :=
          (by rw [← List.map_append]; exact hndv : ((pre.map Prod.snd) ++
            (s.nodeConn.map Prod.snd)).Nodup).of_append_left
        exact hsub
      · have hlen : (updateRec (splitTemplateEdges s r.nodes tpl).tets t
            { r with children := childIds s tpl }).length = s.tets.length := by
          rw [updateRec_length, hEtets]
        have htakeT : addedTets s (refineTet s t tpl) =
            ((childIds s tpl).zip
              (childRecs (splitTemplateEdges s r.nodes tpl) t r tpl)).map
                (fun kv => (kv.1, kv.2.parent)) := by
          rw [addedTets, hs1]
          show ((((childIds s tpl).zip (childRecs (splitTemplateEdges s r.nodes tpl) t r tpl)) ++
            updateRec (splitTemplateEdges s r.nodes tpl).tets t
              { r with children := childIds s tpl }).take _).map _ = _
          rw [List.length_append, hlen, Nat.add_sub_cancel, List.take_left]
        intro q hq
        rw [htakeT, List.mem_map] at hq
        obtain ⟨kv, hkv, rfl⟩ := hq
        obtain ⟨a, b⟩ := kv
        constructor
        · have hbmem := (List.of_mem_zip hkv).2
          rw [childRecs, List.mem_map] at hbmem
          obtain ⟨cv, _, hcv⟩ := hbmem
          rw [← hcv]
        · exact childIds_ge s tpl a (List.of_mem_zip hkv).1
    · have hid : refineTet s t tpl = s := by
        unfold refineTet
        split
        · rfl
        · rename_i r' heq
          rw [heq] at hlt
          obtain rfl := Option.some.inj hlt
          rw [if_neg hcond]
      rw [hid]
      refine ⟨?_, ?_, ?_⟩
      · intro p hp
        simp [addedNodes] at hp
      · simp [addedNodes]
      · intro q hq
        simp [addedTets] at hq


/-- C3 witness: the round trip on the single-tet state with a 1:2 split. -/
theorem refine_derefine_roundtrip_witness :
    (derefineTet (refineTet oneTetState 0 (.oneToTwo 0)) 0).active = oneTetState.active ∧
    activeConnectivity (derefineTet (refineTet oneTetState 0 (.oneToTwo 0)) 0) =
      activeConnectivity oneTetState ∧
    (∀ n, n < oneTetState.nextNode →
      lookupCoord (derefineTet (refineTet oneTetState 0 (.oneToTwo 0)) 0) n =
        lookupCoord oneTetState n) ∧
    (refineTet (derefineTet (refineTet oneTetState 0 (.oneToTwo 0)) 0) 0
        (.oneToTwo 0)).nodeConn = (refineTet oneTetState 0 (.oneToTwo 0)).nodeConn ∧
    (refineTet (derefineTet (refineTet oneTetState 0 (.oneToTwo 0)) 0) 0
        (.oneToTwo 0)).nextNode = (refineTet oneTetState 0 (.oneToTwo 0)).nextNode ∧
    (refineTet (derefineTet (refineTet oneTetState 0 (.oneToTwo 0)) 0) 0
        (.oneToTwo 0)).coord = (refineTet oneTetState 0 (.oneToTwo 0)).coord ∧
    (refineTet (derefineTet (refineTet oneTetState 0 (.oneToTwo 0)) 0) 0
        (.oneToTwo 0)).edges = (refineTet oneTetState 0 (.oneToTwo 0)).edges :=
  refine_derefine_roundtrip oneTetState 0 (.oneToTwo 0)
    { nodes := [0, 1, 2, 3], level := 0, parent := none, children := [] }
    ⟨by decide, by decide, by decide, by decide, by decide, by decide, by decide, by decide⟩
    (by decide) (by decide) (by decide)

/-- C9 witness: the added-node and added-tet reports of a 1:2 split of the
single-tet state. -/
theorem resizePostAMR_added_maps_witness :
    (∀ p ∈ addedNodes oneTetState (refineTet oneTetState 0 (.oneToTwo 0)),
      alookup (refineTet oneTetState 0 (.oneToTwo 0)).nodeConn (p : ℕ × GEdge).2 = some p.1 ∧
      oneTetState.nextNode ≤ p.1 ∧ p.2.1 < oneTetState.nextNode ∧
      p.2.2 < oneTetState.nextNode ∧
      (∀ e', (e', p.1) ∈ (refineTet oneTetState 0 (.oneToTwo 0)).nodeConn → e' = p.2)) ∧
    ((addedNodes oneTetState (refineTet oneTetState 0 (.oneToTwo 0))).map Prod.fst).Nodup ∧
    (∀ q ∈ addedTets oneTetState (refineTet oneTetState 0 (.oneToTwo 0)),
      (q : ℕ × Option ℕ).2 = some 0 ∧ oneTetState.nextTet ≤ q.1) :=
  resizePostAMR_added_maps oneTetState 0 (.oneToTwo 0)
    ⟨by decide, by decide, by decide, by decide, by decide, by decide, by decide, by decide⟩


end TetAMR
